import Mathlib

/-!
Shallow embedding of the selection / pity-weighting engine of
`src/src/components/DecisionMaker.jsx` (decision-simulator repository).

JavaScript objects used as string-keyed maps are embedded as association
lists (`JsMap`); JS numbers holding miss-counts, thresholds and weights are
embedded as `Int` (the code only ever stores integers there), and the
`Math.random()` draws plus fractional durations as `ℚ`.  Randomness is made
explicit: each function that calls `Math.random()` takes the drawn value in
`[0,1)` as a parameter.
-/

/-- A JavaScript object used as a map, embedded as an association list. -/
abbrev JsMap (α β : Type) : Type := List (α × β)

/-- Property read `m[k]`: first binding of `k`, if any. -/
def alGet? [DecidableEq α] : JsMap α β → α → Option β
  | [], _ => none
  | (k', v) :: rest, k => if k' = k then some v else alGet? rest k

/-- Property read with a default (the `(m && m[k]) || d` JS idiom). -/
def alGetD [DecidableEq α] (m : JsMap α β) (k : α) (d : β) : β :=
  (alGet? m k).getD d

/-- Property assignment `m[k] = v`: replaces any existing binding of `k`
(observably identical to JS in-place update; physical order may differ,
which no embedded operation observes). -/
def alSet [DecidableEq α] : JsMap α β → α → β → JsMap α β
  | [], k, v => [(k, v)]
  | (k', v') :: rest, k, v =>
      if k' = k then alSet rest k v else (k', v') :: alSet rest k v

/-- `decisionKeyFromText` from the source: `String(text)`. -/
def decisionKeyFromText (text : String) : String := text

/-- The `Number(x) || d` JS idiom on an integer field: `0` is falsy. -/
def orDefault (x d : Int) : Int := if x = 0 then d else x

/-- The pity configuration object (`pitySettings` / `DEFAULT_PITY_SETTINGS`). -/
structure PityCfg where
  enabled : Bool
  softIncrement : Int
  hardThreshold : Int
  softMultiplierCap : Int
  autoResetWhenAllHardHit : Bool
deriving DecidableEq

/-- Miss-count of one option: `Number((counts && counts[key]) || 0)`. -/
def pityOf (counts : JsMap String Int) (d : String) : Int :=
  alGetD counts (decisionKeyFromText d) 0

/-- Miss-count of the option at position `i` of the list. -/
def pityAt (counts : JsMap String Int) (decisionsArr : List String) (i : Nat) : Int :=
  pityOf counts (decisionsArr.getD i "")

/-- Body of the weight computation in `pickWithPity`:
`weight = Math.min(base + softInc * pity, base * cap)` with `base = 1`. -/
def softWeight (softInc cap pity : Int) : Int :=
  let base : Int := 1
  let rawWeight := base + softInc * pity
  let maxWeight := base * cap
  min rawWeight maxWeight

/-- The weights array built by the loop of `pickWithPity`. -/
def pickWeights (decisionsArr : List String) (counts : JsMap String Int)
    (pityCfg : PityCfg) : List Int :=
  decisionsArr.map
    (fun d => softWeight (orDefault pityCfg.softIncrement 1)
      (orDefault pityCfg.softMultiplierCap 5) (pityOf counts d))

/-- The hard-candidate scan of `pickWithPity`: running
`(hardCandidateIndex, highestPity)` over the options, updating only when
`pity >= hardTh && pity > highestPity`. -/
def hardScanGo (hardTh : Int) (counts : JsMap String Int) :
    List String → Nat → Int → Int → Int × Int
  | [], _, hardCandidateIndex, highestPity => (hardCandidateIndex, highestPity)
  | d :: rest, i, hardCandidateIndex, highestPity =>
      let pity := pityOf counts d
      if hardTh ≤ pity ∧ highestPity < pity then
        hardScanGo hardTh counts rest (i + 1) (i : Int) pity
      else
        hardScanGo hardTh counts rest (i + 1) hardCandidateIndex highestPity

/-- `weights.reduce((s, w) => s + Math.max(0, w), 0)`. -/
def sumClamped (weights : List Int) : Int :=
  (weights.map (fun w => max 0 w)).sum

/-- Clamped sum of the first `n` weights. -/
def sumClampedTake (weights : List Int) (n : Nat) : Int :=
  sumClamped (weights.take n)

/-- The subtraction loop of `weightedRandomIndex`:
`r -= Math.max(0, weights[i]); if (r <= 0) return i;`. -/
def wriGo : List Int → ℚ → Nat → Option Nat
  | [], _, _ => none
  | w :: ws, r, i =>
      let r' := r - ((max 0 w : Int) : ℚ)
      if r' ≤ 0 then some i else wriGo ws r' (i + 1)

/-- `weightedRandomIndex(weights)`; `rand` is the `Math.random()` draw in
`[0,1)` of whichever branch executes. -/
def weightedRandomIndex (weights : List Int) (rand : ℚ) : Nat :=
  let total := sumClamped weights
  if total ≤ 0 then (⌊rand * (weights.length : ℚ)⌋).toNat
  else (wriGo weights (rand * (total : ℚ)) 0).getD (weights.length - 1)

/-- Result of `pickWithPity` / the selection engine. -/
structure PickResult where
  chosenIndex : Nat
  method : String
deriving DecidableEq

/-- `pickWithPity(decisionsArr, pityCountsForScope, pityCfg)`; the single
source loop both scans for the hard candidate and pushes the weights, split
here into `hardScanGo` and `pickWeights` (the two are independent). -/
def pickWithPity (decisionsArr : List String) (pityCountsForScope : JsMap String Int)
    (pityCfg : PityCfg) (rand : ℚ) : PickResult :=
  let hardTh := orDefault pityCfg.hardThreshold 12
  let scan := hardScanGo hardTh pityCountsForScope decisionsArr 0 (-1) (-1)
  let weights := pickWeights decisionsArr pityCountsForScope pityCfg
  if 0 ≤ scan.1 then { chosenIndex := scan.1.toNat, method := "hard-pity" }
  else { chosenIndex := weightedRandomIndex weights rand, method := "soft-weight" }

/-- The counts loop of `applyPityUpdate`: for each option at index `i`,
`counts[key] = 0` when `i === chosenIndex`, else
`counts[key] = (Number(counts[key]) || 0) + 1`. -/
def applyCountsFrom (chosenIndex : Nat) :
    List String → Nat → JsMap String Int → JsMap String Int
  | [], _, counts => counts
  | d :: rest, i, counts =>
      let key := decisionKeyFromText d
      let counts' :=
        if i = chosenIndex then alSet counts key 0
        else alSet counts key (alGetD counts key 0 + 1)
      applyCountsFrom chosenIndex rest (i + 1) counts'

/-- `const cleared = {}; for (const d of decisionsArr) cleared[key(d)] = 0;`. -/
def clearedMap : List String → JsMap String Int → JsMap String Int
  | [], acc => acc
  | d :: rest, acc => clearedMap rest (alSet acc (decisionKeyFromText d) 0)

/-- The hard-hit set after the update: on a `"hard-pity"` outcome the chosen
key is added (`Set.add`, keeping insertion order); otherwise unchanged. -/
def updatedHardHits (hardHitsSet : List String) (chosenKey : String)
    (method : String) : List String :=
  if method = "hard-pity" then
    if hardHitsSet.contains chosenKey then hardHitsSet
    else hardHitsSet ++ [chosenKey]
  else hardHitsSet

/-- The auto-reset test of `applyPityUpdate`: `cfg.autoResetWhenAllHardHit`
and every (distinct) option key is in the scope's hard-hit set.  The source
iterates a `Set` built from the keys; `List.all` over the options tests the
same condition. -/
def autoResetCondition (cfg : PityCfg) (decisionsArr : List String)
    (hardHits1 : List String) : Bool :=
  cfg.autoResetWhenAllHardHit
    && decisionsArr.all (fun d => hardHits1.contains (decisionKeyFromText d))

/-- `scopeKey || getScopeKey()`: empty string is the falsy case. -/
def resolvedScope (dflt scopeKey : String) : String :=
  if scopeKey = "" then dflt else scopeKey

/-- The two pieces of pity state the ledger operations touch:
`pityAll` (scope → option key → miss-count) and `pityHardHitsAll`
(scope → array of hard-hit option keys). -/
structure PityState where
  pityAll : JsMap String (JsMap String Int)
  pityHardHitsAll : JsMap String (List String)
deriving DecidableEq

/-- `applyPityUpdate(scopeKey, decisionsArr, chosenIndex, method)`.  `dflt`
is the value of `getScopeKey()` used when `scopeKey` is falsy; `cfg` is the
component's `pitySettings` (always a real object, so its `|| DEFAULT` is
dead).  Counts are bumped, a hard-pity win is recorded, and when the
auto-reset condition holds the scope's counts and hard-hit set are cleared
in the same update. -/
def applyPityUpdate (st : PityState) (cfg : PityCfg) (dflt scopeKey : String)
    (decisionsArr : List String) (chosenIndex : Nat) (method : String) :
    PityState :=
  let keyScope := resolvedScope dflt scopeKey
  let counts := (alGet? st.pityAll keyScope).getD []
  let hardHitsSet := (alGet? st.pityHardHitsAll keyScope).getD []
  let counts1 := applyCountsFrom chosenIndex decisionsArr 0 counts
  let chosenKey := decisionKeyFromText (decisionsArr.getD chosenIndex "")
  let hardHits1 := updatedHardHits hardHitsSet chosenKey method
  let pityAll1 := alSet st.pityAll keyScope counts1
  let hardHitsAll1 :=
    if method = "hard-pity" then alSet st.pityHardHitsAll keyScope hardHits1
    else st.pityHardHitsAll
  if autoResetCondition cfg decisionsArr hardHits1 then
    { pityAll := alSet pityAll1 keyScope (clearedMap decisionsArr []),
      pityHardHitsAll := alSet hardHitsAll1 keyScope [] }
  else
    { pityAll := pityAll1, pityHardHitsAll := hardHitsAll1 }

/-- `countFor(scope, optionKey)` (the read path
`(pityAll && pityAll[scope]) ? pityAll[scope] : {}` then
`Number(map[key] || 0)`): stored miss-count, or 0 if absent. -/
def countFor (st : PityState) (scope k : String) : Int :=
  alGetD ((alGet? st.pityAll scope).getD []) k 0

/-- One history entry as built by `addHistoryEntry` (the generated `id` and
wall-clock `timestamp` are omitted: no claim observes them). -/
structure HistoryEntry where
  decision : String
  dice : Option Int
  duration : Option ℚ
  method : Option String
deriving DecidableEq

/-- The component state touched by the spin/stop/reset operations. -/
structure AppState where
  decisions : List String
  activeIndex : Int
  spinRunning : Bool
  progress : Int
  history : List HistoryEntry
  pity : PityState
  pitySettings : PityCfg
  pityScopeChoice : String
  currentPresetId : Option String
  diceRoll : Option Int
  diceDurationSec : Option ℚ
deriving DecidableEq

/-- `getScopeKey()`: `currentPresetId || "global"` (a present, non-empty
preset id is the truthy case). -/
def getScopeKey (st : AppState) : String :=
  match st.currentPresetId with
  | some pid => if pid = "" then "global" else pid
  | none => "global"

/-- `resolveScopeKey(scopeChoice)`: the preset id when the choice is
`"preset"` and a preset is applied, else `"global"`. -/
def resolveScopeKey (scopeChoice : String) (currentPresetId : Option String) :
    String :=
  if scopeChoice = "preset" then
    match currentPresetId with
    | some pid => if pid = "" then "global" else pid
    | none => "global"
  else "global"

/-- `stopSpin()`: clears the timers (timer handles are not modelled), drops
the running flag, and — when a spin was running with the cursor on a real
option (`decisions[activeIndex]` truthy) — records a `"manual-stop"` history
entry for the cursor's option and, only if pity is enabled in the saved
settings, applies the pity update for that index.  Progress is reset to 0. -/
def stopSpin (st : AppState) : AppState :=
  let wasRunning := st.spinRunning
  let st1 := { st with spinRunning := false }
  if wasRunning ∧ 0 ≤ st.activeIndex ∧ st.activeIndex.toNat < st.decisions.length
      ∧ st.decisions.getD st.activeIndex.toNat "" ≠ "" then
    let entry : HistoryEntry :=
      { decision := st.decisions.getD st.activeIndex.toNat "",
        dice := st.diceRoll, duration := st.diceDurationSec,
        method := some "manual-stop" }
    let st2 := { st1 with history := entry :: st1.history }
    let scope := resolveScopeKey st.pityScopeChoice st.currentPresetId
    let st3 :=
      if st.pitySettings.enabled then
        { st2 with pity := (applyPityUpdate st2.pity st.pitySettings
            (getScopeKey st) scope st.decisions st.activeIndex.toNat
            "manual-stop") }
      else st2
    { st3 with progress := 0 }
  else { st1 with progress := 0 }

/-- `resetPityForScope(scopeKey)`: every current option's count becomes 0
(the scope's map is replaced by the cleared map) and the scope's hard-hit
set is emptied. -/
def resetPityForScope (st : AppState) (scopeKey : String) : AppState :=
  let key := resolvedScope (getScopeKey st) scopeKey
  let cleared := clearedMap st.decisions []
  { st with pity :=
      { pityAll := alSet st.pity.pityAll key cleared,
        pityHardHitsAll := alSet st.pity.pityHardHitsAll key [] } }

/-- `resetPityGlobal()`: the `"global"` scope's counts are cleared to 0 for
every current option and its hard-hit set is emptied. -/
def resetPityGlobal (st : AppState) : AppState :=
  { st with pity :=
      { pityAll := alSet st.pity.pityAll "global" (clearedMap st.decisions []),
        pityHardHitsAll := alSet st.pity.pityHardHitsAll "global" [] } }

/-- One row of the dice settings editor; `none` stands for the field states
that fail the `Number required` test (empty string / null / undefined /
NaN), `some q` for a real number. -/
structure DiceRow where
  num : Option ℚ
  sec : Option ℚ
deriving DecidableEq

/-- The per-row error record of `validateDiceArray`. -/
structure RowErr where
  numErr : Option String
  secErr : Option String
deriving DecidableEq

/-- The loop of `validateDiceArray`: `seen` maps a face number to the first
row index carrying it; `errors` maps a row index to its error record.  A
duplicate face marks both offending rows. -/
def vdaGo : List DiceRow → Nat → JsMap ℚ Nat → JsMap Nat RowErr →
    JsMap Nat RowErr
  | [], _, _, errors => errors
  | it :: rest, idx, seen, errors =>
      let numStep : Option String × JsMap ℚ Nat × JsMap Nat RowErr :=
        match it.num with
        | none => (some "Number required", seen, errors)
        | some n =>
            if ¬ n.den = 1 then (some "Must be integer", seen, errors)
            else if n < 1 ∨ n > 50 then (some "Must be 1–50", seen, errors)
            else
              match alGet? seen n with
              | some otherIdx =>
                  let oErr := alGetD errors otherIdx ⟨none, none⟩
                  (some "Duplicate number", seen,
                    alSet errors otherIdx { oErr with numErr := some "Duplicate number" })
              | none => (none, alSet seen n idx, errors)
      let numErr := numStep.1
      let seen' := numStep.2.1
      let errors' := numStep.2.2
      let secErr : Option String :=
        match it.sec with
        | none => some "Duration required"
        | some s => if s ≤ 0 ∨ s > 60 then some "Must be >0 and ≤60" else none
      let errors'' :=
        if numErr.isSome ∨ secErr.isSome then
          alSet errors' idx ⟨numErr, secErr⟩
        else errors'
      vdaGo rest (idx + 1) seen' errors''

/-- `validateDiceArray(arr)`: the per-row error map (empty means the edit
passes dice validation).  Note: no rule in it inspects `arr.length`. -/
def validateDiceArray (arr : List DiceRow) : JsMap Nat RowErr :=
  vdaGo arr 0 [] []

/-- The pity fields of the settings modal as read by `saveSettingsModal`
(`Number(pityEdit.field)` for the three numeric fields). -/
structure PityEditVals where
  enabled : Bool
  softIncrement : ℚ
  hardThreshold : ℚ
  softMultiplierCap : ℚ
  autoResetWhenAllHardHit : Bool
deriving DecidableEq

/-- `.sort((a, b) => a.num - b.num)` on the normalized dice rows
(insertion sort; ascending face number, observably the JS sort). -/
def sortByFace : List (ℚ × ℚ) → List (ℚ × ℚ)
  | [] => []
  | r :: rest => insertByFace r (sortByFace rest)
where
  insertByFace (r : ℚ × ℚ) : List (ℚ × ℚ) → List (ℚ × ℚ)
    | [] => [r]
    | s :: rest => if r.1 ≤ s.1 then r :: s :: rest else s :: insertByFace r rest

/-- Outcome of `saveSettingsModal`: either rejected with the
`settingsSaveError` message, or committed with the normalized dice table
and the pity config written to `pitySettings`. -/
inductive SaveOutcome where
  | rejected : String → SaveOutcome
  | committed : List (ℚ × ℚ) → PityCfg → SaveOutcome
deriving DecidableEq

/-- `saveSettingsModal()`: validates the dice edit and the pity fields,
rejecting on any error, else commits the normalized (sorted) dice table and
the pity config.  (The `lastSelectedScope` bookkeeping is UI-only and
omitted.)  The integer fields are committed via `⌊·⌋`, equal to the JS
number since `Number.isInteger` was just checked. -/
def saveSettingsModal (diceEdit : List DiceRow) (pityEdit : PityEditVals) :
    SaveOutcome :=
  let diceErrs := validateDiceArray diceEdit
  if diceErrs ≠ [] then .rejected "Fix dice validation errors before saving."
  else
    let sInc := pityEdit.softIncrement
    let hardTh := pityEdit.hardThreshold
    let cap := pityEdit.softMultiplierCap
    if ¬ sInc.den = 1 ∨ sInc ≤ 0 then .rejected "softIncrement must be integer > 0"
    else if ¬ hardTh.den = 1 ∨ hardTh < 1 then .rejected "hardThreshold must be integer ≥ 1"
    else if ¬ cap.den = 1 ∨ cap < 1 then .rejected "cap must be integer ≥ 1"
    else
      let normalized := sortByFace
        (diceEdit.map (fun r => (r.num.getD 0, r.sec.getD 0)))
      .committed normalized
        { enabled := pityEdit.enabled, softIncrement := ⌊sInc⌋,
          hardThreshold := ⌊hardTh⌋, softMultiplierCap := ⌊cap⌋,
          autoResetWhenAllHardHit := pityEdit.autoResetWhenAllHardHit }

/-- `Math.round` on a real value: floor of `x + 1/2` (JS rounds half toward
plus infinity). -/
def jsRound (x : ℚ) : Int := ⌊x + 1 / 2⌋

/-- The effective spin duration computed by `startDecision`:
`Math.max(300, Math.round(chosenSec * 1000))` milliseconds. -/
def desiredMs (chosenSec : ℚ) : Int := max 300 (jsRound (chosenSec * 1000))

/-- Every miss-count physically stored in a scope's count map is ≥ 0. -/
def NonnegCounts (m : JsMap String Int) : Prop := ∀ q ∈ m, 0 ≤ q.2

/-- Every miss-count physically stored anywhere in the ledger is ≥ 0. -/
def NonnegLedger (all : JsMap String (JsMap String Int)) : Prop :=
  ∀ p ∈ all, NonnegCounts p.2

/-- `decisionKeyFromText` is the identity on strings. -/
theorem decisionKeyFromText_eq (t : String) : decisionKeyFromText t = t := rfl

/-- Reading the key just written. -/
theorem alGet?_alSet_self [DecidableEq α] (m : JsMap α β) (k : α) (v : β) :
    alGet? (alSet m k v) k = some v := by
  induction m with
  | nil => simp [alSet, alGet?]
  | cons p rest ih =>
    obtain ⟨a, b⟩ := p
    by_cases h : a = k
    · simp [alSet, h, ih]
    · simp [alSet, alGet?, h, ih]

/-- Writing one key leaves the others unchanged. -/
theorem alGet?_alSet_ne [DecidableEq α] (m : JsMap α β) {k k' : α} (v : β)
    (h : k' ≠ k) : alGet? (alSet m k v) k' = alGet? m k' := by
  induction m with
  | nil =>
    simp only [alSet, alGet?]
    rw [if_neg (fun e => h e.symm)]
  | cons p rest ih =>
    obtain ⟨a, b⟩ := p
    by_cases ha : a = k
    · subst ha
      have e1 : alSet ((a, b) :: rest) a v = alSet rest a v := by simp [alSet]
      rw [e1, ih]
      simp only [alGet?]
      rw [if_neg (fun e => h e.symm)]
    · simp only [alSet, if_neg ha, alGet?]
      by_cases ha' : a = k'
      · rw [if_pos ha', if_pos ha']
      · rw [if_neg ha', if_neg ha', ih]

/-- Defaulted read of the key just written. -/
theorem alGetD_alSet_self [DecidableEq α] (m : JsMap α β) (k : α) (v d : β) :
    alGetD (alSet m k v) k d = v := by
  unfold alGetD
  rw [alGet?_alSet_self]
  rfl

/-- Defaulted read of another key after a write. -/
theorem alGetD_alSet_ne [DecidableEq α] (m : JsMap α β) {k k' : α} (v d : β)
    (h : k' ≠ k) : alGetD (alSet m k v) k' d = alGetD m k' d := by
  unfold alGetD
  rw [alGet?_alSet_ne _ _ h]

/-- Overwriting the same key twice is one write. -/
theorem alSet_alSet_same [DecidableEq α] (m : JsMap α β) (k : α) (v v' : β) :
    alSet (alSet m k v) k v' = alSet m k v' := by
  induction m with
  | nil => simp [alSet]
  | cons p rest ih =>
    obtain ⟨a, b⟩ := p
    by_cases h : a = k
    · simp [alSet, h, ih]
    · simp [alSet, h, ih]

/-- A binding of the written map is an old binding or the written pair. -/
theorem mem_alSet [DecidableEq α] {m : JsMap α β} {k : α} {v : β} {p : α × β}
    (hp : p ∈ alSet m k v) : p ∈ m ∨ p = (k, v) := by
  induction m with
  | nil => simpa [alSet] using hp
  | cons q rest ih =>
    obtain ⟨a, b⟩ := q
    by_cases h : a = k
    · simp only [alSet, if_pos h] at hp
      rcases ih hp with h' | h'
      · exact Or.inl (List.mem_cons_of_mem _ h')
      · exact Or.inr h'
    · simp only [alSet, if_neg h, List.mem_cons] at hp
      rcases hp with h' | h'
      · exact Or.inl (h' ▸ List.mem_cons_self _ _)
      · rcases ih h' with h'' | h''
        · exact Or.inl (List.mem_cons_of_mem _ h'')
        · exact Or.inr h''

/-- A successful read is a binding of the map. -/
theorem alGet?_mem [DecidableEq α] {m : JsMap α β} {k : α} {v : β}
    (h : alGet? m k = some v) : (k, v) ∈ m := by
  induction m with
  | nil => simp [alGet?] at h
  | cons q rest ih =>
    obtain ⟨a, b⟩ := q
    by_cases ha : a = k
    · subst ha
      have hb : b = v := by simpa [alGet?] using h
      subst hb
      exact List.mem_cons_self _ _
    · simp only [alGet?, if_neg ha] at h
      exact List.mem_cons_of_mem _ (ih h)

/-- Defaulted read of a map whose stored values are all nonnegative. -/
theorem alGetD_nonneg {m : JsMap String Int} (hm : NonnegCounts m)
    (k : String) : 0 ≤ alGetD m k 0 := by
  unfold alGetD
  cases h : alGet? m k with
  | none => simp
  | some v => simpa using hm _ (alGet?_mem h)

/-- Writing a nonnegative value keeps all stored values nonnegative. -/
theorem nonnegCounts_alSet {m : JsMap String Int} {k : String} {v : Int}
    (hm : NonnegCounts m) (hv : 0 ≤ v) : NonnegCounts (alSet m k v) := by
  intro q hq
  rcases mem_alSet hq with h | h
  · exact hm _ h
  · simp [h, hv]

/-- Every defaulted read of the cleared map yields 0. -/
theorem clearedMap_getD (l : List String) :
    ∀ acc : JsMap String Int, (∀ k, alGetD acc k 0 = 0) →
      ∀ k, alGetD (clearedMap l acc) k 0 = 0 := by
  induction l with
  | nil => intro acc hacc k; simpa [clearedMap] using hacc k
  | cons d rest ih =>
    intro acc hacc k
    refine ih _ (fun k' => ?_) k
    simp only [decisionKeyFromText_eq]
    by_cases h : k' = d
    · subst h
      rw [alGetD_alSet_self]
    · rw [alGetD_alSet_ne _ _ _ h]
      exact hacc k'

/-- The cleared map stores only nonnegative values. -/
theorem clearedMap_nonneg (l : List String) :
    ∀ acc : JsMap String Int, NonnegCounts acc → NonnegCounts (clearedMap l acc) := by
  induction l with
  | nil => intro acc hacc; simpa [clearedMap] using hacc
  | cons d rest ih =>
    intro acc hacc
    exact ih _ (nonnegCounts_alSet hacc le_rfl)

/-- An in-bounds defaulted list read is a member. -/
theorem getD_mem_of_lt {l : List String} {j : Nat} (hj : j < l.length) :
    l.getD j "" ∈ l := by
  induction l generalizing j with
  | nil => simp at hj
  | cons d rest ih =>
    cases j with
    | zero => simp
    | succ j' =>
      simp only [List.getD_cons_succ]
      exact List.mem_cons_of_mem _ (ih (by simpa using hj))

/-- The counts loop never touches a key outside the options list. -/
theorem applyCountsFrom_get?_not_mem (c : Nat) :
    ∀ (l : List String) (i : Nat) (acc : JsMap String Int) (k : String),
      k ∉ l → alGet? (applyCountsFrom c l i acc) k = alGet? acc k := by
  intro l
  induction l with
  | nil => intro i acc k _; simp [applyCountsFrom]
  | cons d rest ih =>
    intro i acc k hk
    have hkd : k ≠ d := fun e => hk (e ▸ List.mem_cons_self _ _)
    have hkrest : k ∉ rest := fun e => hk (List.mem_cons_of_mem _ e)
    simp only [applyCountsFrom, decisionKeyFromText_eq]
    rw [ih _ _ _ hkrest]
    split
    · exact alGet?_alSet_ne _ _ hkd
    · exact alGet?_alSet_ne _ _ hkd

/-- For pairwise-distinct options, the counts loop sets the chosen option's
count to 0 and bumps every other option's count by exactly 1. -/
theorem applyCountsFrom_getD :
    ∀ (l : List String) (c i0 : Nat) (acc : JsMap String Int) (j : Nat),
      l.Nodup → j < l.length →
      alGetD (applyCountsFrom c l i0 acc) (l.getD j "") 0
        = if i0 + j = c then 0 else alGetD acc (l.getD j "") 0 + 1 := by
  intro l
  induction l with
  | nil => intro c i0 acc j _ hj; simp at hj
  | cons d rest ih =>
    intro c i0 acc j hnd hj
    have hdrest : d ∉ rest := (List.nodup_cons.mp hnd).1
    cases j with
    | zero =>
      simp only [List.getD_cons_zero, Nat.add_zero, applyCountsFrom,
        decisionKeyFromText_eq]
      unfold alGetD
      rw [applyCountsFrom_get?_not_mem c rest (i0 + 1) _ d hdrest]
      by_cases hic : i0 = c
      · rw [if_pos hic, if_pos hic, alGet?_alSet_self]
        rfl
      · rw [if_neg hic, if_neg hic, alGet?_alSet_self]
        rfl
    | succ j' =>
      have hj' : j' < rest.length := by simpa using hj
      have hkey : rest.getD j' "" ≠ d := fun e => hdrest (e ▸ getD_mem_of_lt hj')
      simp only [List.getD_cons_succ, applyCountsFrom, decisionKeyFromText_eq]
      rw [ih c (i0 + 1) _ j' (List.nodup_cons.mp hnd).2 hj']
      have h2 : alGetD (if i0 = c then alSet acc d 0
            else alSet acc d (alGetD acc d 0 + 1)) (rest.getD j' "") 0
          = alGetD acc (rest.getD j' "") 0 := by
        split
        · exact alGetD_alSet_ne _ _ _ hkey
        · exact alGetD_alSet_ne _ _ _ hkey
      rw [h2, show i0 + 1 + j' = i0 + (j' + 1) from by omega]

/-- The counts loop writes only nonnegative values. -/
theorem applyCountsFrom_nonneg (c : Nat) :
    ∀ (l : List String) (i : Nat) (acc : JsMap String Int),
      NonnegCounts acc → NonnegCounts (applyCountsFrom c l i acc) := by
  intro l
  induction l with
  | nil => intro i acc hacc; simpa [applyCountsFrom] using hacc
  | cons d rest ih =>
    intro i acc hacc
    simp only [applyCountsFrom, decisionKeyFromText_eq]
    refine ih _ _ ?_
    split
    · exact nonnegCounts_alSet hacc le_rfl
    · refine nonnegCounts_alSet hacc ?_
      have := alGetD_nonneg hacc d
      omega

/-- The clamped total is never negative. -/
theorem sumClamped_nonneg (ws : List Int) : 0 ≤ sumClamped ws := by
  unfold sumClamped
  refine List.sum_nonneg ?_
  intro a ha
  simp only [List.mem_map] at ha
  obtain ⟨w, _, rfl⟩ := ha
  exact le_max_left 0 w

/-- Unfolding the clamped total over a cons. -/
theorem sumClamped_cons (w : Int) (ws : List Int) :
    sumClamped (w :: ws) = max 0 w + sumClamped ws := by
  simp [sumClamped]

/-- The empty clamped partial sum. -/
theorem sumClampedTake_zero (ws : List Int) : sumClampedTake ws 0 = 0 := rfl

/-- Unfolding a clamped partial sum over a cons. -/
theorem sumClampedTake_cons_succ (w : Int) (ws : List Int) (n : Nat) :
    sumClampedTake (w :: ws) (n + 1) = max 0 w + sumClampedTake ws n := by
  simp [sumClampedTake, sumClamped]

/-- If no option's miss-count at or above the threshold exceeds the running
maximum, the scan leaves the accumulator untouched. -/
theorem hardScanGo_const (hardTh : Int) (counts : JsMap String Int) :
    ∀ (l : List String) (i0 : Nat) (hci high : Int),
      (∀ j, j < l.length → hardTh ≤ pityOf counts (l.getD j "") →
        pityOf counts (l.getD j "") ≤ high) →
      hardScanGo hardTh counts l i0 hci high = (hci, high) := by
  intro l
  induction l with
  | nil => intro i0 hci high _; rfl
  | cons d rest ih =>
    intro i0 hci high hno
    have hd : ¬(hardTh ≤ pityOf counts d ∧ high < pityOf counts d) := by
      rintro ⟨h1, h2⟩
      have hle := hno 0 (by simp) (by simpa using h1)
      simp only [List.getD_cons_zero] at hle
      exact absurd hle (not_le.mpr h2)
    simp only [hardScanGo]
    rw [if_neg hd]
    refine ih _ _ _ ?_
    intro j hj hq
    have := hno (j + 1) (by simpa using hj) (by simpa using hq)
    simpa using this

/-- If some option at or above the threshold exceeds the running maximum,
the scan lands on the first index attaining the maximum qualifying
miss-count: every qualifying count is at most the result's, and every
earlier qualifying count is strictly below it. -/
theorem hardScanGo_found (hardTh : Int) (counts : JsMap String Int) :
    ∀ (l : List String) (i0 : Nat) (hci high : Int),
      (∃ j, j < l.length ∧ hardTh ≤ pityOf counts (l.getD j "") ∧
        high < pityOf counts (l.getD j "")) →
      ∃ k, k < l.length ∧
        hardScanGo hardTh counts l i0 hci high
          = (((i0 + k : Nat) : Int), pityOf counts (l.getD k "")) ∧
        hardTh ≤ pityOf counts (l.getD k "") ∧
        high < pityOf counts (l.getD k "") ∧
        (∀ j, j < l.length → hardTh ≤ pityOf counts (l.getD j "") →
          pityOf counts (l.getD j "") ≤ pityOf counts (l.getD k "")) ∧
        (∀ j, j < k → hardTh ≤ pityOf counts (l.getD j "") →
          pityOf counts (l.getD j "") < pityOf counts (l.getD k "")) := by
  intro l
  induction l with
  | nil => intro i0 hci high hex; simp at hex
  | cons d rest ih =>
    intro i0 hci high hex
    by_cases hd : hardTh ≤ pityOf counts d ∧ high < pityOf counts d
    · by_cases hrest : ∃ j, j < rest.length ∧
          hardTh ≤ pityOf counts (rest.getD j "") ∧
          pityOf counts d < pityOf counts (rest.getD j "")
      · obtain ⟨k', hk', e, hq, hgt, hall, hfirst⟩ :=
          ih (i0 + 1) (i0 : Int) (pityOf counts d) hrest
        refine ⟨k' + 1, by simpa using Nat.succ_lt_succ hk', ?_, ?_, ?_, ?_, ?_⟩
        · simp only [hardScanGo]
          rw [if_pos hd, e]
          simp only [List.getD_cons_succ]
          congr 2
          omega
        · simpa using hq
        · simp only [List.getD_cons_succ]
          exact lt_trans hd.2 hgt
        · intro j hj hqj
          cases j with
          | zero =>
            simp only [List.getD_cons_zero] at hqj ⊢
            simp only [List.getD_cons_succ]
            exact le_of_lt hgt
          | succ j' =>
            simp only [List.getD_cons_succ] at hqj ⊢
            exact hall j' (by simpa using hj) hqj
        · intro j hj hqj
          cases j with
          | zero =>
            simp only [List.getD_cons_zero] at hqj
            simp only [List.getD_cons_zero, List.getD_cons_succ]
            exact hgt
          | succ j' =>
            simp only [List.getD_cons_succ] at hqj ⊢
            exact hfirst j' (by omega) hqj
      · have hrest' : ∀ j, j < rest.length →
            hardTh ≤ pityOf counts (rest.getD j "") →
            pityOf counts (rest.getD j "") ≤ pityOf counts d := by
          intro j hj hq
          by_contra hlt
          exact hrest ⟨j, hj, hq, lt_of_not_le hlt⟩
        refine ⟨0, by simp, ?_, by simpa using hd.1, by simpa using hd.2, ?_, ?_⟩
        · simp only [hardScanGo]
          rw [if_pos hd, hardScanGo_const hardTh counts rest (i0 + 1) (i0 : Int)
            (pityOf counts d) hrest']
          simp
        · intro j hj hqj
          cases j with
          | zero => simp
          | succ j' =>
            simp only [List.getD_cons_succ, List.getD_cons_zero] at hqj ⊢
            exact hrest' j' (by simpa using hj) hqj
        · intro j hj
          omega
    · obtain ⟨j, hj, hq, hgt⟩ := hex
      cases j with
      | zero =>
        exact absurd ⟨by simpa using hq, by simpa using hgt⟩ hd
      | succ j' =>
        have hrest : ∃ jj, jj < rest.length ∧
            hardTh ≤ pityOf counts (rest.getD jj "") ∧
            high < pityOf counts (rest.getD jj "") :=
          ⟨j', by simpa using hj, by simpa using hq, by simpa using hgt⟩
        obtain ⟨k', hk', e, hq', hgt', hall, hfirst⟩ := ih (i0 + 1) hci high hrest
        have hple : hardTh ≤ pityOf counts d → pityOf counts d ≤ high := by
          intro h1
          by_contra hlt
          exact hd ⟨h1, lt_of_not_le hlt⟩
        refine ⟨k' + 1, by simpa using Nat.succ_lt_succ hk', ?_, ?_, ?_, ?_, ?_⟩
        · simp only [hardScanGo]
          rw [if_neg hd, e]
          simp only [List.getD_cons_succ]
          congr 2
          omega
        · simpa using hq'
        · simpa using hgt'
        · intro j hj hqj
          cases j with
          | zero =>
            simp only [List.getD_cons_zero] at hqj
            simp only [List.getD_cons_zero, List.getD_cons_succ]
            exact le_of_lt (lt_of_le_of_lt (hple hqj) hgt')
          | succ jj =>
            simp only [List.getD_cons_succ] at hqj ⊢
            exact hall jj (by simpa using hj) hqj
        · intro j hj hqj
          cases j with
          | zero =>
            simp only [List.getD_cons_zero] at hqj
            simp only [List.getD_cons_zero, List.getD_cons_succ]
            exact lt_of_le_of_lt (hple hqj) hgt'
          | succ jj =>
            simp only [List.getD_cons_succ] at hqj ⊢
            exact hfirst jj (by omega) hqj

/-- The subtraction loop of `weightedRandomIndex` returns the first index
whose clamped running total reaches the draw, whenever the draw lies in
`[0, total)`. -/
theorem wriGo_found :
    ∀ (ws : List Int) (r : ℚ) (i : Nat),
      0 ≤ r → r < ((sumClamped ws : Int) : ℚ) →
      ∃ k, k < ws.length ∧ wriGo ws r i = some (i + k) ∧
        r ≤ ((sumClampedTake ws (k + 1) : Int) : ℚ) ∧
        ∀ j, j < k → ((sumClampedTake ws (j + 1) : Int) : ℚ) < r := by
  intro ws
  induction ws with
  | nil =>
    intro r i hr hlt
    exfalso
    simp only [sumClamped, List.map_nil, List.sum_nil, Int.cast_zero] at hlt
    linarith
  | cons w ws ih =>
    intro r i hr hlt
    simp only [wriGo]
    by_cases hstop : r - ((max 0 w : Int) : ℚ) ≤ 0
    · refine ⟨0, by simp, ?_, ?_, by intro j hj; omega⟩
      · rw [if_pos hstop]
        simp
      · rw [sumClampedTake_cons_succ, sumClampedTake_zero]
        push_cast at hstop ⊢
        linarith
    · rw [if_neg hstop]
      have h0 : 0 < r - ((max 0 w : Int) : ℚ) := lt_of_not_le hstop
      have hlt' : r - ((max 0 w : Int) : ℚ) < ((sumClamped ws : Int) : ℚ) := by
        rw [sumClamped_cons] at hlt
        push_cast at hlt ⊢
        linarith
      obtain ⟨k', hk', e, hle, hfirst⟩ := ih (r - ((max 0 w : Int) : ℚ)) (i + 1)
        (le_of_lt h0) hlt'
      refine ⟨k' + 1, by simpa using Nat.succ_lt_succ hk', ?_, ?_, ?_⟩
      · rw [e]
        congr 1
        omega
      · rw [sumClampedTake_cons_succ]
        push_cast at hle ⊢
        linarith
      · intro j hj
        cases j with
        | zero =>
          rw [sumClampedTake_cons_succ, sumClampedTake_zero]
          push_cast at h0 ⊢
          linarith
        | succ j' =>
          have := hfirst j' (by omega)
          rw [sumClampedTake_cons_succ]
          push_cast at this ⊢
          linarith

/-- A positive integer field is left alone by the `|| d` fallback. -/
theorem orDefault_of_pos {x : Int} (h : 1 ≤ x) (d : Int) : orDefault x d = x := by
  unfold orDefault
  rw [if_neg (by omega)]

/-- C1: for every options list, pity-count map and valid pity config, if
some option's miss-count is at or above `hardThreshold`, `pickWithPity`
returns method `"hard-pity"` and an in-range index whose miss-count is at
or above the threshold and maximal among all qualifying indices, with every
earlier qualifying index strictly below it (ties keep the earliest index);
the result does not depend on the random draw. -/
theorem pickWithPity_hardPity_argmax
    (decisionsArr : List String) (counts : JsMap String Int) (cfg : PityCfg)
    (rand : ℚ) (hth : 1 ≤ cfg.hardThreshold)
    (hex : ∃ i, i < decisionsArr.length ∧
      cfg.hardThreshold ≤ pityAt counts decisionsArr i) :
    (pickWithPity decisionsArr counts cfg rand).method = "hard-pity"
    ∧ (pickWithPity decisionsArr counts cfg rand).chosenIndex < decisionsArr.length
    ∧ cfg.hardThreshold ≤ pityAt counts decisionsArr
        (pickWithPity decisionsArr counts cfg rand).chosenIndex
    ∧ (∀ j, j < decisionsArr.length → cfg.hardThreshold ≤ pityAt counts decisionsArr j →
        pityAt counts decisionsArr j
          ≤ pityAt counts decisionsArr (pickWithPity decisionsArr counts cfg rand).chosenIndex)
    ∧ (∀ j, j < (pickWithPity decisionsArr counts cfg rand).chosenIndex →
        cfg.hardThreshold ≤ pityAt counts decisionsArr j →
        pityAt counts decisionsArr j
          < pityAt counts decisionsArr (pickWithPity decisionsArr counts cfg rand).chosenIndex)
    ∧ (∀ rand' : ℚ, pickWithPity decisionsArr counts cfg rand'
        = pickWithPity decisionsArr counts cfg rand) := by
  have hth0 : orDefault cfg.hardThreshold 12 = cfg.hardThreshold :=
    orDefault_of_pos hth 12
  obtain ⟨i, hi, hq⟩ := hex
  unfold pityAt at hq
  have hex' : ∃ j, j < decisionsArr.length ∧
      orDefault cfg.hardThreshold 12 ≤ pityOf counts (decisionsArr.getD j "") ∧
      (-1 : Int) < pityOf counts (decisionsArr.getD j "") := by
    refine ⟨i, hi, by rw [hth0]; exact hq, ?_⟩
    have := hq
    omega
  obtain ⟨k, hk, e, hkq, _, hall, hfirst⟩ :=
    hardScanGo_found (orDefault cfg.hardThreshold 12) counts decisionsArr 0 (-1) (-1) hex'
  have hres : ∀ rq : ℚ, pickWithPity decisionsArr counts cfg rq
      = ⟨k, "hard-pity"⟩ := by
    intro rq
    simp only [pickWithPity]
    rw [e]
    rw [if_pos (by positivity)]
    simp
  rw [hth0] at hkq hall hfirst
  refine ⟨by rw [hres rand], ?_, ?_, ?_, ?_, fun rq => by rw [hres rq, hres rand]⟩
  · rw [hres rand]
    exact hk
  · rw [hres rand]
    unfold pityAt
    exact hkq
  · intro j hj hqj
    rw [hres rand]
    unfold pityAt at hqj ⊢
    exact hall j hj hqj
  · intro j hj hqj
    rw [hres rand] at hj
    rw [hres rand]
    unfold pityAt at hqj ⊢
    exact hfirst j hj hqj

/-- Witness for C1 at a concrete tie: options `A B C` with `B` and `C` both
at miss-count 12 and threshold 12 — the earliest qualifying index (1) wins
by hard pity. -/
theorem pickWithPity_hardPity_argmax_witness :
    (pickWithPity ["A", "B", "C"] [("B", 12), ("C", 12)]
        ⟨true, 1, 12, 5, false⟩ 0).method = "hard-pity"
    ∧ (pickWithPity ["A", "B", "C"] [("B", 12), ("C", 12)]
        ⟨true, 1, 12, 5, false⟩ 0).chosenIndex < 3 := by
  have h := pickWithPity_hardPity_argmax ["A", "B", "C"] [("B", 12), ("C", 12)]
    ⟨true, 1, 12, 5, false⟩ 0 (by decide) ⟨1, by decide, by decide⟩
  exact ⟨h.1, h.2.1⟩

/-- C4: with a valid config, the soft weight of an option with miss-count
`m ≥ 0` equals `min(1 + softIncrement * m, softMultiplierCap)`, hence lies
between 1 and the cap; and the weights used by `pickWithPity` are exactly
these soft weights of the options' miss-counts. -/
theorem softWeight_cap_spec (cfg : PityCfg) (m : Int)
    (hinc : 1 ≤ cfg.softIncrement) (hcap : 1 ≤ cfg.softMultiplierCap)
    (hm : 0 ≤ m) :
    softWeight (orDefault cfg.softIncrement 1) (orDefault cfg.softMultiplierCap 5) m
        = min (1 + cfg.softIncrement * m) cfg.softMultiplierCap
    ∧ 1 ≤ softWeight (orDefault cfg.softIncrement 1)
        (orDefault cfg.softMultiplierCap 5) m
    ∧ softWeight (orDefault cfg.softIncrement 1)
        (orDefault cfg.softMultiplierCap 5) m ≤ cfg.softMultiplierCap
    ∧ ∀ (decisionsArr : List String) (counts : JsMap String Int),
        pickWeights decisionsArr counts cfg = decisionsArr.map (fun d =>
          softWeight (orDefault cfg.softIncrement 1)
            (orDefault cfg.softMultiplierCap 5) (pityOf counts d)) := by
  have hi := orDefault_of_pos hinc 1
  have hc := orDefault_of_pos hcap 5
  have hmul : 0 ≤ cfg.softIncrement * m := mul_nonneg (by omega) hm
  refine ⟨?_, ?_, ?_, fun _ _ => rfl⟩
  · simp only [softWeight]
    rw [hi, hc, one_mul]
  · simp only [softWeight]
    rw [hi, hc, one_mul]
    exact le_min (by omega) hcap
  · simp only [softWeight]
    rw [hi, hc, one_mul]
    exact min_le_right _ _

/-- Witness for C4 at `softIncrement = 1`, `cap = 5`, `m = 3`. -/
theorem softWeight_cap_spec_witness :
    softWeight (orDefault 1 1) (orDefault 5 5) 3 = min (1 + 1 * 3) 5
    ∧ 1 ≤ softWeight (orDefault 1 1) (orDefault 5 5) 3
    ∧ softWeight (orDefault 1 1) (orDefault 5 5) 3 ≤ 5 := by
  have h := softWeight_cap_spec ⟨true, 1, 12, 5, false⟩ 3 (by decide) (by decide)
    (by decide)
  exact ⟨h.1, h.2.1, h.2.2.1⟩

/-- C7: in the soft-weight branch (no option at or above the hard
threshold), `pickWithPity` returns `weightedRandomIndex` of the soft
weights; the clamped total is never negative; when it is positive the
returned index is the first whose clamped running total reaches
`r = rand * total`; when it is zero the uniform fallback index
`⌊rand * length⌋` is returned. -/
theorem weightedRandomIndex_spec
    (decisionsArr : List String) (counts : JsMap String Int) (cfg : PityCfg)
    (rand : ℚ) (hth : 1 ≤ cfg.hardThreshold)
    (hr0 : 0 ≤ rand) (hr1 : rand < 1)
    (hsoft : ∀ i, i < decisionsArr.length →
      pityAt counts decisionsArr i < cfg.hardThreshold) :
    (pickWithPity decisionsArr counts cfg rand).method = "soft-weight"
    ∧ (pickWithPity decisionsArr counts cfg rand).chosenIndex
        = weightedRandomIndex (pickWeights decisionsArr counts cfg) rand
    ∧ 0 ≤ sumClamped (pickWeights decisionsArr counts cfg)
    ∧ (0 < sumClamped (pickWeights decisionsArr counts cfg) →
        weightedRandomIndex (pickWeights decisionsArr counts cfg) rand
            < decisionsArr.length
        ∧ rand * ((sumClamped (pickWeights decisionsArr counts cfg) : Int) : ℚ)
            ≤ ((sumClampedTake (pickWeights decisionsArr counts cfg)
                (weightedRandomIndex (pickWeights decisionsArr counts cfg) rand + 1)
                : Int) : ℚ)
        ∧ ∀ j, j < weightedRandomIndex (pickWeights decisionsArr counts cfg) rand →
            ((sumClampedTake (pickWeights decisionsArr counts cfg) (j + 1) : Int) : ℚ)
              < rand * ((sumClamped (pickWeights decisionsArr counts cfg) : Int) : ℚ))
    ∧ (sumClamped (pickWeights decisionsArr counts cfg) ≤ 0 →
        weightedRandomIndex (pickWeights decisionsArr counts cfg) rand
          = (⌊rand * (decisionsArr.length : ℚ)⌋).toNat) := by
  have hth0 : orDefault cfg.hardThreshold 12 = cfg.hardThreshold :=
    orDefault_of_pos hth 12
  have hlen : (pickWeights decisionsArr counts cfg).length = decisionsArr.length :=
    List.length_map _ _
  have hscan : hardScanGo (orDefault cfg.hardThreshold 12) counts decisionsArr 0
      (-1) (-1) = (-1, -1) := by
    refine hardScanGo_const _ _ _ _ _ _ ?_
    intro j hj hq
    rw [hth0] at hq
    have := hsoft j hj
    unfold pityAt at this
    omega
  have hres : pickWithPity decisionsArr counts cfg rand
      = ⟨weightedRandomIndex (pickWeights decisionsArr counts cfg) rand,
          "soft-weight"⟩ := by
    simp only [pickWithPity]
    rw [hscan]
    norm_num
  refine ⟨by rw [hres], by rw [hres], sumClamped_nonneg _, ?_, ?_⟩
  · intro htot
    have htotq : (0 : ℚ) < ((sumClamped (pickWeights decisionsArr counts cfg) : Int) : ℚ) := by
      exact_mod_cast htot
    have hrr : 0 ≤ rand * ((sumClamped (pickWeights decisionsArr counts cfg) : Int) : ℚ) :=
      mul_nonneg hr0 (le_of_lt htotq)
    have hrlt : rand * ((sumClamped (pickWeights decisionsArr counts cfg) : Int) : ℚ)
        < ((sumClamped (pickWeights decisionsArr counts cfg) : Int) : ℚ) := by
      nlinarith
    obtain ⟨k, hk, e, hle, hfirst⟩ :=
      wriGo_found (pickWeights decisionsArr counts cfg)
        (rand * ((sumClamped (pickWeights decisionsArr counts cfg) : Int) : ℚ)) 0
        hrr hrlt
    have hwri : weightedRandomIndex (pickWeights decisionsArr counts cfg) rand = k := by
      unfold weightedRandomIndex
      rw [if_neg (not_le.mpr htot), e]
      simp
    rw [hwri]
    exact ⟨hlen ▸ hk, hle, hfirst⟩
  · intro htot
    unfold weightedRandomIndex
    rw [if_pos htot, hlen]

/-- Witness for C7: two fresh options, default config, draw 1/2 — the
soft-weight branch runs. -/
theorem weightedRandomIndex_spec_witness :
    (0 : ℚ) ≤ 1 / 2 ∧ (1 / 2 : ℚ) < 1
    ∧ (pickWithPity ["A", "B"] [] ⟨true, 1, 12, 5, false⟩ (1 / 2)).method
        = "soft-weight" := by
  refine ⟨by norm_num, by norm_num, ?_⟩
  exact (weightedRandomIndex_spec ["A", "B"] [] ⟨true, 1, 12, 5, false⟩ (1 / 2)
    (by decide) (by norm_num) (by norm_num) (by decide)).1

/-- C10: the effective spin duration is `max(300, round(sec * 1000))`
milliseconds, so it is always at least 300 ms — even for arbitrarily small
dice durations — and equals the rounded duration once that reaches 300 ms. -/
theorem desiredMs_floor_spec (sec : ℚ) :
    300 ≤ desiredMs sec
    ∧ desiredMs sec = max 300 (jsRound (sec * 1000))
    ∧ (jsRound (sec * 1000) < 300 → desiredMs sec = 300)
    ∧ (300 ≤ jsRound (sec * 1000) → desiredMs sec = jsRound (sec * 1000)) := by
  refine ⟨le_max_left _ _, rfl, ?_, ?_⟩
  · intro h
    unfold desiredMs
    exact max_eq_left (le_of_lt h)
  · intro h
    unfold desiredMs
    exact max_eq_right h

/-- Witness for C10 at a 10 ms dice duration: the 300 ms floor applies. -/
theorem desiredMs_floor_spec_witness :
    jsRound ((1 / 100 : ℚ) * 1000) < 300 ∧ desiredMs (1 / 100) = 300 := by
  have hj : jsRound ((1 / 100 : ℚ) * 1000) < 300 := by norm_num [jsRound]
  exact ⟨hj, (desiredMs_floor_spec (1 / 100)).2.2.1 hj⟩

/-- The value read by `countFor` from a ledger with only nonnegative stored
values is nonnegative, lifted to the scope read of `applyPityUpdate`. -/
theorem nonnegCounts_read {all : JsMap String (JsMap String Int)}
    (hall : NonnegLedger all) (k : String) :
    NonnegCounts ((alGet? all k).getD []) := by
  cases h : alGet? all k with
  | none => intro q hq; simp at hq
  | some v =>
    intro q hq
    exact hall _ (alGet?_mem h) q hq

/-- Writing a scope map with nonnegative values keeps the ledger
nonnegative. -/
theorem nonnegLedger_alSet {all : JsMap String (JsMap String Int)}
    {k : String} {mm : JsMap String Int}
    (hall : NonnegLedger all) (hm : NonnegCounts mm) :
    NonnegLedger (alSet all k mm) := by
  intro p hp
  rcases mem_alSet hp with h | h
  · exact hall _ h
  · rw [h]
    exact hm

/-- C3 (amended): for pairwise-distinct option texts, when the auto-reset
clearing does not fire, `applyPityUpdate` stores 0 for the chosen option and
the prior count plus 1 for every other option. -/
theorem applyPityUpdate_counts_spec
    (st : PityState) (cfg : PityCfg) (dflt scopeKey : String)
    (decisionsArr : List String) (chosenIndex : Nat) (method : String)
    (hnd : decisionsArr.Nodup) (_hc : chosenIndex < decisionsArr.length)
    (hnoreset : autoResetCondition cfg decisionsArr
      (updatedHardHits
        ((alGet? st.pityHardHitsAll (resolvedScope dflt scopeKey)).getD [])
        (decisionKeyFromText (decisionsArr.getD chosenIndex "")) method) = false) :
    ∀ i, i < decisionsArr.length →
      countFor (applyPityUpdate st cfg dflt scopeKey decisionsArr chosenIndex method)
          (resolvedScope dflt scopeKey) (decisionKeyFromText (decisionsArr.getD i ""))
        = if i = chosenIndex then 0
          else countFor st (resolvedScope dflt scopeKey)
                 (decisionKeyFromText (decisionsArr.getD i "")) + 1 := by
  intro i hi
  unfold countFor
  simp only [applyPityUpdate, hnoreset, Bool.false_eq_true, if_false]
  rw [alGet?_alSet_self]
  simp only [Option.getD_some]
  have h := applyCountsFrom_getD decisionsArr chosenIndex 0
    ((alGet? st.pityAll (resolvedScope dflt scopeKey)).getD []) i hnd hi
  simp only [Nat.zero_add] at h
  simpa [decisionKeyFromText_eq] using h

/-- Counterexample to C3 as stated: with duplicate option text `A A` the
chosen option's stored count ends at 1, not 0; and when the auto-reset
fires, a missed option's prior count 5 ends at 0, not 6. -/
theorem applyPityUpdate_counts_cex :
    countFor (applyPityUpdate ⟨[], []⟩ ⟨true, 1, 12, 5, false⟩ "global" "global"
        ["A", "A"] 0 "soft-weight") "global" "A" = 1
    ∧ countFor (applyPityUpdate ⟨[("global", [("B", 5)])], [("global", ["A", "B"])]⟩
        ⟨true, 1, 12, 5, true⟩ "global" "global" ["A", "B"] 0 "soft-weight")
        "global" "B" = 0 := by
  exact ⟨by decide, by decide⟩

/-- Witness for C3 at distinct options `A B`, prior count `B = 5`, chosen
index 0: the missed option `B` ends at exactly 6. -/
theorem applyPityUpdate_counts_spec_witness :
    countFor (applyPityUpdate ⟨[("global", [("B", 5)])], []⟩ ⟨true, 1, 12, 5, false⟩
        "global" "global" ["A", "B"] 0 "soft-weight")
        (resolvedScope "global" "global")
        (decisionKeyFromText (["A", "B"].getD 1 ""))
      = countFor ⟨[("global", [("B", 5)])], []⟩ (resolvedScope "global" "global")
          (decisionKeyFromText (["A", "B"].getD 1 "")) + 1 := by
  have h := applyPityUpdate_counts_spec ⟨[("global", [("B", 5)])], []⟩
    ⟨true, 1, 12, 5, false⟩ "global" "global" ["A", "B"] 0 "soft-weight"
    (by decide) (by decide) (by decide) 1 (by decide)
  simpa using h

/-- C5: with `autoResetWhenAllHardHit` on, on any resolution after which
every option key of the current list is in the scope's hard-hit set,
`applyPityUpdate` leaves every miss-count of that scope at 0 and the
scope's hard-hit set empty, within the same update. -/
theorem applyPityUpdate_autoReset_spec
    (st : PityState) (cfg : PityCfg) (dflt scopeKey : String)
    (decisionsArr : List String) (chosenIndex : Nat) (method : String)
    (hauto : cfg.autoResetWhenAllHardHit = true)
    (hall : decisionsArr.all (fun d =>
      (updatedHardHits
        ((alGet? st.pityHardHitsAll (resolvedScope dflt scopeKey)).getD [])
        (decisionKeyFromText (decisionsArr.getD chosenIndex "")) method).contains
        (decisionKeyFromText d)) = true) :
    (∀ k, countFor (applyPityUpdate st cfg dflt scopeKey decisionsArr chosenIndex method)
        (resolvedScope dflt scopeKey) k = 0)
    ∧ alGet? (applyPityUpdate st cfg dflt scopeKey decisionsArr chosenIndex
        method).pityHardHitsAll (resolvedScope dflt scopeKey) = some [] := by
  have hcond : autoResetCondition cfg decisionsArr
      (updatedHardHits
        ((alGet? st.pityHardHitsAll (resolvedScope dflt scopeKey)).getD [])
        (decisionKeyFromText (decisionsArr.getD chosenIndex "")) method) = true := by
    unfold autoResetCondition
    rw [hauto, hall]
    rfl
  constructor
  · intro k
    unfold countFor
    simp only [applyPityUpdate, hcond, if_true]
    rw [alGet?_alSet_self]
    simp only [Option.getD_some]
    exact clearedMap_getD decisionsArr [] (fun _ => rfl) k
  · simp only [applyPityUpdate, hcond, if_true]
    exact alGet?_alSet_self _ _ _

/-- Witness for C5: both options already hard-hit; a further soft-weight
resolution zeroes the counts and empties the hard-hit set. -/
theorem applyPityUpdate_autoReset_spec_witness :
    countFor (applyPityUpdate ⟨[("global", [("A", 3), ("B", 7)])],
        [("global", ["A", "B"])]⟩ ⟨true, 1, 12, 5, true⟩ "global" "global"
        ["A", "B"] 0 "soft-weight") (resolvedScope "global" "global") "B" = 0
    ∧ alGet? (applyPityUpdate ⟨[("global", [("A", 3), ("B", 7)])],
        [("global", ["A", "B"])]⟩ ⟨true, 1, 12, 5, true⟩ "global" "global"
        ["A", "B"] 0 "soft-weight").pityHardHitsAll
        (resolvedScope "global" "global") = some [] := by
  have h := applyPityUpdate_autoReset_spec ⟨[("global", [("A", 3), ("B", 7)])],
    [("global", ["A", "B"])]⟩ ⟨true, 1, 12, 5, true⟩ "global" "global"
    ["A", "B"] 0 "soft-weight" (by decide) (by decide)
  exact ⟨h.1 "B", h.2⟩

/-- C9: each ledger-writing operation — `applyPityUpdate`,
`resetPityForScope`, `resetPityGlobal` — maps a ledger whose stored
miss-counts are all nonnegative to a ledger whose stored miss-counts are
all nonnegative (each writes only 0 or a prior nonnegative count plus 1). -/
theorem pity_counts_nonneg_preserved
    (ps : PityState) (ast : AppState) (cfg : PityCfg) (dflt scopeKey : String)
    (decisionsArr : List String) (chosen : Nat) (method : String)
    (hps : NonnegLedger ps.pityAll) (hast : NonnegLedger ast.pity.pityAll) :
    NonnegLedger (applyPityUpdate ps cfg dflt scopeKey decisionsArr chosen
        method).pityAll
    ∧ NonnegLedger (resetPityForScope ast scopeKey).pity.pityAll
    ∧ NonnegLedger (resetPityGlobal ast).pity.pityAll := by
  have hnil : NonnegCounts ([] : JsMap String Int) := by
    intro q hq
    simp at hq
  have hcleared : ∀ l : List String, NonnegCounts (clearedMap l []) :=
    fun l => clearedMap_nonneg l [] hnil
  refine ⟨?_, ?_, ?_⟩
  · have hcounts : NonnegCounts (applyCountsFrom chosen decisionsArr 0
        ((alGet? ps.pityAll (resolvedScope dflt scopeKey)).getD [])) :=
      applyCountsFrom_nonneg chosen decisionsArr 0 _
        (nonnegCounts_read hps (resolvedScope dflt scopeKey))
    simp only [applyPityUpdate]
    split <;> split
    all_goals
      first
      | exact nonnegLedger_alSet (nonnegLedger_alSet hps hcounts) (hcleared _)
      | exact nonnegLedger_alSet hps hcounts
  · unfold resetPityForScope
    exact nonnegLedger_alSet hast (hcleared _)
  · unfold resetPityGlobal
    exact nonnegLedger_alSet hast (hcleared _)

/-- Witness for C9 at a small concrete ledger. -/
theorem pity_counts_nonneg_preserved_witness :
    NonnegLedger (applyPityUpdate ⟨[("global", [("A", 2)])], []⟩
        ⟨true, 1, 12, 5, false⟩ "global" "global" ["A", "B"] 0
        "soft-weight").pityAll := by
  have h1 : NonnegLedger [("global", [("A", 2)])] := by
    intro p hp
    simp only [List.mem_singleton] at hp
    subst hp
    intro q hq
    simp only [List.mem_singleton] at hq
    subst hq
    norm_num
  have h2 : NonnegLedger ([] : JsMap String (JsMap String Int)) := by
    intro p hp
    simp at hp
  exact (pity_counts_nonneg_preserved ⟨[("global", [("A", 2)])], []⟩
    ⟨[], 0, false, 0, [], ⟨[], []⟩, ⟨true, 1, 12, 5, false⟩, "global", none,
      none, none⟩
    ⟨true, 1, 12, 5, false⟩ "global" "global" ["A", "B"] 0 "soft-weight"
    h1 h2).1

/-- C2 (amended): stopping a running spin with the cursor on a real option
prepends exactly one `"manual-stop"` history entry for the cursor's option,
resets progress to 0, and — when pity is enabled in the saved settings —
applies the pity update for the cursor's index (never the precomputed
winner, which `stopSpin` does not even see); with pity disabled the ledger
is left unchanged. -/
theorem stopSpin_manualStop_spec (st : AppState)
    (hrun : st.spinRunning = true) (hai : 0 ≤ st.activeIndex)
    (hlen : st.activeIndex.toNat < st.decisions.length)
    (hne : st.decisions.getD st.activeIndex.toNat "" ≠ "") :
    (stopSpin st).history
      = { decision := st.decisions.getD st.activeIndex.toNat "",
          dice := st.diceRoll, duration := st.diceDurationSec,
          method := some "manual-stop" } :: st.history
    ∧ (stopSpin st).progress = 0
    ∧ (st.pitySettings.enabled = true →
        (stopSpin st).pity = applyPityUpdate st.pity st.pitySettings
          (getScopeKey st) (resolveScopeKey st.pityScopeChoice st.currentPresetId)
          st.decisions st.activeIndex.toNat "manual-stop")
    ∧ (st.pitySettings.enabled = false → (stopSpin st).pity = st.pity) := by
  have hcond : st.spinRunning = true ∧ 0 ≤ st.activeIndex
      ∧ st.activeIndex.toNat < st.decisions.length
      ∧ st.decisions.getD st.activeIndex.toNat "" ≠ "" := ⟨hrun, hai, hlen, hne⟩
  by_cases he : st.pitySettings.enabled = true
  · have hres : stopSpin st =
        { st with
            spinRunning := false,
            history :=
              ({ decision := st.decisions.getD st.activeIndex.toNat "",
                 dice := st.diceRoll, duration := st.diceDurationSec,
                 method := some "manual-stop" } : HistoryEntry) :: st.history,
            pity := (applyPityUpdate st.pity st.pitySettings (getScopeKey st)
              (resolveScopeKey st.pityScopeChoice st.currentPresetId) st.decisions
              st.activeIndex.toNat "manual-stop"),
            progress := 0 } := by
      simp only [stopSpin]
      rw [if_pos hcond, if_pos he]
    refine ⟨by rw [hres], by rw [hres], fun _ => by rw [hres], fun hf => ?_⟩
    rw [he] at hf
    exact absurd hf (by simp)
  · have hres : stopSpin st =
        { st with
            spinRunning := false,
            history :=
              ({ decision := st.decisions.getD st.activeIndex.toNat "",
                 dice := st.diceRoll, duration := st.diceDurationSec,
                 method := some "manual-stop" } : HistoryEntry) :: st.history,
            progress := 0 } := by
      simp only [stopSpin]
      rw [if_pos hcond, if_neg he]
    refine ⟨by rw [hres], by rw [hres], fun ht => absurd ht he, fun _ => by rw [hres]⟩

/-- Counterexample to C2 as stated: a running spin with pity disabled in
the saved settings — `stopSpin` leaves the pity ledger untouched even
though the pity update at the cursor's index would have changed it. -/
theorem stopSpin_pity_disabled_cex :
    (stopSpin ⟨["A", "B"], 0, true, 37, [], ⟨[], []⟩, ⟨false, 1, 12, 5, false⟩,
        "global", none, none, none⟩).pity = ⟨[], []⟩
    ∧ applyPityUpdate ⟨[], []⟩ ⟨false, 1, 12, 5, false⟩ "global" "global"
        ["A", "B"] 0 "manual-stop" ≠ ⟨[], []⟩ := by
  exact ⟨by decide, by decide⟩

/-- Witness for C2 at a running spin with pity enabled and the cursor on
option `B` (index 1). -/
theorem stopSpin_manualStop_spec_witness :
    (stopSpin ⟨["A", "B"], 1, true, 50, [], ⟨[], []⟩, ⟨true, 1, 12, 5, false⟩,
        "global", none, some 3, none⟩).history
      = [⟨"B", some 3, none, some "manual-stop"⟩]
    ∧ (stopSpin ⟨["A", "B"], 1, true, 50, [], ⟨[], []⟩, ⟨true, 1, 12, 5, false⟩,
        "global", none, some 3, none⟩).progress = 0 := by
  have h := stopSpin_manualStop_spec ⟨["A", "B"], 1, true, 50, [], ⟨[], []⟩,
    ⟨true, 1, 12, 5, false⟩, "global", none, some 3, none⟩
    rfl (by decide) (by decide) (by decide)
  exact ⟨h.1, h.2.1⟩

/-- C8: after `resetPityForScope` every option key of the scope reads a
miss-count of 0 and the scope's hard-hit set is empty, and running the
reset twice in a row leaves exactly the state of running it once. -/
theorem resetPityForScope_spec (st : AppState) (scopeKey : String) :
    (∀ k, countFor (resetPityForScope st scopeKey).pity
        (resolvedScope (getScopeKey st) scopeKey) k = 0)
    ∧ alGet? (resetPityForScope st scopeKey).pity.pityHardHitsAll
        (resolvedScope (getScopeKey st) scopeKey) = some []
    ∧ resetPityForScope (resetPityForScope st scopeKey) scopeKey
        = resetPityForScope st scopeKey := by
  refine ⟨?_, ?_, ?_⟩
  · intro k
    unfold countFor resetPityForScope
    rw [alGet?_alSet_self]
    simp only [Option.getD_some]
    exact clearedMap_getD st.decisions [] (fun _ => rfl) k
  · unfold resetPityForScope
    exact alGet?_alSet_self _ _ _
  · simp only [resetPityForScope, getScopeKey]
    simp only [alSet_alSet_same]

/-- C6: the claim is right and the code is wrong — `validateDiceArray`
never inspects the number of faces, so a single-face table `{1: 3s}`
produces no validation errors and `saveSettingsModal` commits it, while the
two-face table `{1: 3s, 2: 5s}` is also committed (the spec, the modal's
own help text and the `deleteDiceRow` guard all require at least 2 faces). -/
theorem validateDiceArray_single_face_accepted :
    validateDiceArray [⟨some 1, some 3⟩] = []
    ∧ saveSettingsModal [⟨some 1, some 3⟩] ⟨true, 1, 12, 5, false⟩
        = SaveOutcome.committed [(1, 3)] ⟨true, 1, 12, 5, false⟩
    ∧ saveSettingsModal [⟨some 1, some 3⟩, ⟨some 2, some 5⟩]
        ⟨true, 1, 12, 5, false⟩
        = SaveOutcome.committed [(1, 3), (2, 5)] ⟨true, 1, 12, 5, false⟩ := by
  exact ⟨by decide, by decide, by decide⟩

